import Mathlib

/-!
Verification of the roommate-ledger expense application.

The development shallowly embeds the data model (`models.py`), the SQL CRUD
service layer (`services.py`) and the dataframe aggregation pipeline
(`views.py`) of the repository.

Modelling conventions:
- The `expenses` SQLite table is a list of rows; each row carries the implicit
  SQLite `rowid` next to the four declared columns.  On INSERT without an
  explicit rowid, SQLite assigns one more than the largest rowid in use
  (one for an empty table); `newRowid` reproduces that rule.
- `purchased_date` is stored by the app as an ISO `YYYY-MM-DD` string
  (the sqlite3 driver adapts `datetime.date` to that format) and all SQL
  comparisons on it are lexicographic text comparisons, which agree with
  calendar order.  The embedding therefore models a date as its day number,
  a `Nat`, which is order-isomorphic to the stored strings and additionally
  supports the calendar arithmetic used by the pandas pipeline.
- `price_in_cents` is a Python `int` (pydantic adds no bound), modelled as
  `Int`; `rowid` is SQLite's signed integer key, modelled as `Int`.
- pandas aggregation (`pivot_table`, `reindex`, `cumsum`, `rolling`) is
  modelled over `List Int` with exact integer arithmetic; the float results
  produced by pandas represent the same sums and maxima.
-/

namespace RoommateLedger

set_option maxRecDepth 40000

/-- Model of `BaseExpense` from `models.py`: the four user-supplied fields.
The pydantic model declares plain types and no validators, so every
well-typed value is accepted; `comment` is a required `str` field. -/
structure BaseExpense where
  price_in_cents : Int
  purchased_date : Nat
  purchased_by : String
  comment : String
  deriving DecidableEq, Repr

/-- Model of `Expense` from `models.py`: a `BaseExpense` plus the SQLite
row identifier. -/
structure Expense extends BaseExpense where
  rowid : Int
  deriving DecidableEq, Repr

/-- The `expenses` table: a list of rows, each with its rowid. -/
abbrev DB := List Expense

/-- Rowid SQLite assigns to an INSERT that does not specify one: one more
than the largest rowid in use (one for an empty table; the seeded states of
this app use non-negative rowids). -/
def newRowid (db : DB) : Int :=
  db.foldr (fun r m => max r.rowid m) 0 + 1

/-- Model of `ExpenseService.create_expense` (`services.py`):
`INSERT into expenses(purchased_date, purchased_by, price_in_cents, comment)
VALUES (...)` appends a fresh row holding exactly the submitted fields. -/
def create_expense (db : DB) (e : BaseExpense) : DB :=
  db ++ [{ toBaseExpense := e, rowid := newRowid db }]

/-- Model of `ExpenseService.update_expense` (`services.py`):
`UPDATE expenses SET purchased_date=..., purchased_by=..., price_in_cents=...,
comment=... WHERE rowid=:rowid` rewrites the four columns of every row whose
rowid matches and leaves all other rows untouched. -/
def update_expense (db : DB) (e : Expense) : DB :=
  db.map fun r =>
    if r.rowid = e.rowid then { toBaseExpense := e.toBaseExpense, rowid := r.rowid } else r

/-- Model of `ExpenseService.delete_expense` (`services.py`):
`DELETE from expenses WHERE rowid = :rowid` keeps exactly the rows whose
rowid differs. -/
def delete_expense (db : DB) (e : Expense) : DB :=
  db.filter fun r => r.rowid != e.rowid

/-- The WHERE clause assembled by `ExpenseService.list_all_expenses`
(`services.py`): an optional inclusive lower bound and upper bound on
`purchased_date` and an optional `purchased_by IN (...)` membership test,
conjoined when several are present.  (The app only passes a non-empty
selection list; SQLite would reject a literal empty `IN ()`.) -/
def rowMatches (start_date end_date : Option Nat)
    (selections : Option (List String)) (r : Expense) : Bool :=
  (match start_date with
   | none => true
   | some s => decide (s ≤ r.purchased_date)) &&
  (match end_date with
   | none => true
   | some e => decide (r.purchased_date ≤ e)) &&
  (match selections with
   | none => true
   | some sel => sel.contains r.purchased_by)

/-- Comparator realising `ORDER BY purchased_date DESC`: row `a` may come
before row `b` when `a`'s date is at least `b`'s. -/
def dateDesc (a b : Expense) : Prop :=
  b.purchased_date ≤ a.purchased_date

instance : DecidableRel dateDesc :=
  fun a b => Nat.decLe b.purchased_date a.purchased_date

instance : IsTotal Expense dateDesc :=
  ⟨fun a b => Nat.le_total b.purchased_date a.purchased_date⟩

instance : IsTrans Expense dateDesc :=
  ⟨fun _ _ _ hab hbc => Nat.le_trans hbc hab⟩

/-- Model of `ExpenseService.list_all_expenses` (`services.py`):
`SELECT rowid, purchased_date, purchased_by, price_in_cents, comment FROM
expenses [WHERE ...] ORDER BY purchased_date DESC`.  Filtering happens before
the sort; the sort key is the purchase date, descending (SQL leaves the order
of equal keys unspecified, realised here by a stable insertion sort). -/
def list_all_expenses (db : DB) (start_date end_date : Option Nat)
    (selections : Option (List String)) : List Expense :=
  List.insertionSort dateDesc (db.filter (rowMatches start_date end_date selections))

/-- The constant `CHAR_LIMIT = 140` defined at the top of `app.py`.  It is
defined but never applied to any field. -/
def CHAR_LIMIT : Nat := 140

/-- Row built by one iteration of `seed_expenses_table` (`services.py`):
`Expense(rowid=i, purchased_date=date(...), purchased_by=choice(...),
comment=choice(...), price_in_cents=randint(50, 100_00))`.  The random draws
are passed in as parameters; `randint(50, 100_00)` yields `50 ≤ price ≤ 10000`
inclusively. -/
def seedRow (rid : Int) (d : Nat) (who c : String) (price : Int) : Expense :=
  { rowid := rid, purchased_date := d, purchased_by := who, comment := c,
    price_in_cents := price }

/-- Smallest purchase date among the rows (`pivot_df.index.min()` in
`render_read`, `views.py`; the pipeline is only run on a non-empty frame). -/
def minDate (rows : List Expense) : Nat :=
  match rows.map (fun r => r.purchased_date) with
  | [] => 0
  | d :: ds => ds.foldl min d

/-- Largest purchase date among the rows (`pivot_df.index.max()`). -/
def maxDate (rows : List Expense) : Nat :=
  match rows.map (fun r => r.purchased_date) with
  | [] => 0
  | d :: ds => ds.foldl max d

/-- The gap-free daily index built by
`pd.date_range(min_date, max_date, freq="D")` and used to reindex the pivot
table (`render_read`, `views.py`): every calendar day from the minimum to the
maximum purchase date inclusive. -/
def allDates (rows : List Expense) : List Nat :=
  List.range' (minDate rows) (maxDate rows + 1 - minDate rows)

/-- One cell of `df.pivot_table(index="purchased_date",
columns="purchased_by", aggfunc="sum", fill_value=0)`: the summed
`price_in_cents` of the rows with the given date and purchaser, zero when
there are none (`fill_value=0`, and reindexing fills missing dates with 0). -/
def dailyTotal (rows : List Expense) (p : String) (d : Nat) : Int :=
  ((rows.filter fun r => r.purchased_date == d && r.purchased_by == p).map
    (fun r => r.price_in_cents)).sum

/-- Per-person column sum of the reindexed pivot table
(`totals = pivot_df.sum()` in `render_read`, `views.py`; the later
`div(100)` only rescales for display). -/
def pivotTotal (rows : List Expense) (p : String) : Int :=
  ((allDates rows).map (dailyTotal rows p)).sum

/-- Stated from the spec's words for the refinement claim: the direct sum of
`price_in_cents` over the person's raw rows, with no pivoting. -/
def specDirectTotal (rows : List Expense) (p : String) : Int :=
  ((rows.filter fun r => r.purchased_by == p).map (fun r => r.price_in_cents)).sum

/-- The person's column of the reindexed pivot table as a daily series:
entry `i` is the day `minDate + i`. -/
def series (rows : List Expense) (p : String) : List Int :=
  (allDates rows).map (dailyTotal rows p)

/-- Trailing window of a pandas `rolling(w, min_periods=1)` aggregate at
position `i`: the last `w` entries of the prefix ending at `i` (all of the
prefix while `i + 1 < w`). -/
def windowAt (w : Nat) (v : List Int) (i : Nat) : List Int :=
  (v.take (i + 1)).drop (i + 1 - w)

/-- Model of `pivot_df.rolling(w, min_periods=1).sum()` on one column
(`rolling_df` in `render_read`, `views.py`, with `w = 7`). -/
def rollingSum (w : Nat) (v : List Int) : List Int :=
  (List.range v.length).map fun i => (windowAt w v i).sum

/-- Maximum of a list of integers, seeded with its head (the rolling windows
this is applied to are never empty thanks to `min_periods=1`). -/
def listMax : List Int → Int
  | [] => 0
  | h :: t => t.foldl max h

/-- Model of `pivot_df.rolling(w, min_periods=1).max()` on one column
(`maxes_df` in `render_read`, `views.py`, with `w = 30`). -/
def rollingMax (w : Nat) (v : List Int) : List Int :=
  (List.range v.length).map fun i => listMax (windowAt w v i)

/-- Stated from the spec's words for claim C8: the calendar days of the range
lying between `d - k` and `d` inclusive, that is the day `d` and its at most
`k` predecessors that fall inside the range. -/
def specTrailingDates (rows : List Expense) (d k : Nat) : List Nat :=
  (allDates rows).filter fun x => decide (d - k ≤ x) && decide (x ≤ d)

/-- Concrete three-row table used to exhibit the order of the feed:
creation order (rowid 1, 2, 3) disagrees with date order. -/
def dbOrder : DB :=
  [{ rowid := 1, purchased_date := 738201, purchased_by := "Alice", comment := "a",
     price_in_cents := 100 },
   { rowid := 2, purchased_date := 738202, purchased_by := "Bob", comment := "b",
     price_in_cents := 200 },
   { rowid := 3, purchased_date := 738200, purchased_by := "Chuck", comment := "c",
     price_in_cents := 300 }]

/-- A submitted expense with a negative price: pydantic's plain `int` field
accepts it, and nothing else rejects it. -/
def badExpense : BaseExpense :=
  { price_in_cents := -1, purchased_date := 738520, purchased_by := "Alice",
    comment := "refund" }

/-- A comment of 141 characters, one more than `CHAR_LIMIT`. -/
def longComment : String :=
  String.mk (List.replicate 141 'a')

/-- A submitted expense whose comment exceeds `CHAR_LIMIT`. -/
def longExpense : BaseExpense :=
  { price_in_cents := 100, purchased_date := 738520, purchased_by := "Bob",
    comment := longComment }

/-- First row of the concrete witness table. -/
def wRow1 : Expense :=
  { rowid := 1, purchased_date := 738100, purchased_by := "Alice", comment := "w1",
    price_in_cents := 250 }

/-- Second row of the concrete witness table. -/
def wRow2 : Expense :=
  { rowid := 2, purchased_date := 738102, purchased_by := "Bob", comment := "w2",
    price_in_cents := 400 }

/-- Third row of the concrete witness table. -/
def wRow3 : Expense :=
  { rowid := 3, purchased_date := 738100, purchased_by := "Alice", comment := "w3",
    price_in_cents := 150 }

/-- Small concrete table shared by the witness statements. -/
def dbW : DB := [wRow1, wRow2, wRow3]

/-- Concrete replacement expense targeting rowid 2 of `dbW`. -/
def expW : Expense :=
  { rowid := 2, purchased_date := 738103, purchased_by := "Chuck", comment := "upd",
    price_in_cents := 999 }

/-- Concrete expense whose rowid 7 matches no row of `dbW`. -/
def expMissing : Expense :=
  { rowid := 7, purchased_date := 738103, purchased_by := "Chuck", comment := "none",
    price_in_cents := 5 }

/-! Helper lemmas. -/

/-- Every rowid in the table is bounded by the fold `newRowid` is built from. -/
theorem rowid_le_fold (db : DB) (r : Expense) (h : r ∈ db) :
    r.rowid ≤ db.foldr (fun x m => max x.rowid m) 0 := by
  induction db with
  | nil => cases h
  | cons a t ih =>
    rcases List.mem_cons.mp h with h1 | h1
    · subst h1
      exact le_max_left _ _
    · exact le_trans (ih h1) (le_max_right _ _)

/-- Counting in a filtered list: the count survives exactly when the element
passes the filter. -/
theorem count_filter_split {α : Type} [DecidableEq α] (p : α → Bool) (l : List α) (a : α) :
    (l.filter p).count a = if p a then l.count a else 0 := by
  by_cases h : p a = true
  · rw [if_pos h, List.count_filter h]
  · rw [if_neg h]
    exact List.count_eq_zero.mpr fun hmem => h (List.mem_filter.mp hmem).2

/-- An empty WHERE clause keeps every row. -/
theorem filter_rowMatches_none (db : DB) :
    db.filter (rowMatches none none none) = db :=
  List.filter_eq_self.mpr fun _ _ => rfl

/-- A left fold by `min` is a lower bound of its initial value. -/
theorem foldl_min_le_init (l : List Nat) (d : Nat) : l.foldl min d ≤ d := by
  induction l generalizing d with
  | nil => exact Nat.le_refl d
  | cons a t ih => exact le_trans (ih (min d a)) (Nat.min_le_left _ _)

/-- A left fold by `min` is a lower bound of every list element. -/
theorem foldl_min_le_mem (l : List Nat) (d x : Nat) (h : x ∈ l) : l.foldl min d ≤ x := by
  induction l generalizing d with
  | nil => cases h
  | cons a t ih =>
    rcases List.mem_cons.mp h with h1 | h1
    · subst h1
      exact le_trans (foldl_min_le_init t (min d x)) (Nat.min_le_right _ _)
    · exact ih (min d a) h1

/-- A left fold by `max` is an upper bound of its initial value. -/
theorem le_foldl_max_init (l : List Nat) (d : Nat) : d ≤ l.foldl max d := by
  induction l generalizing d with
  | nil => exact Nat.le_refl d
  | cons a t ih => exact le_trans (Nat.le_max_left _ _) (ih (max d a))

/-- A left fold by `max` is an upper bound of every list element. -/
theorem le_foldl_max_mem (l : List Nat) (d x : Nat) (h : x ∈ l) : x ≤ l.foldl max d := by
  induction l generalizing d with
  | nil => cases h
  | cons a t ih =>
    rcases List.mem_cons.mp h with h1 | h1
    · subst h1
      exact le_trans (Nat.le_max_right _ _) (le_foldl_max_init t (max d x))
    · exact ih (max d a) h1

/-- The minimum purchase date bounds every row's date from below. -/
theorem minDate_le (rows : List Expense) (r : Expense) (h : r ∈ rows) :
    minDate rows ≤ r.purchased_date := by
  have hm : r.purchased_date ∈ rows.map (fun s => s.purchased_date) :=
    List.mem_map_of_mem _ h
  rw [minDate]
  split
  · next heq => rw [heq] at hm; cases hm
  · next d ds heq =>
    rw [heq] at hm
    rcases List.mem_cons.mp hm with h1 | h1
    · rw [← h1] at *
      exact foldl_min_le_init ds r.purchased_date
    · exact foldl_min_le_mem ds d _ h1

/-- The maximum purchase date bounds every row's date from above. -/
theorem le_maxDate (rows : List Expense) (r : Expense) (h : r ∈ rows) :
    r.purchased_date ≤ maxDate rows := by
  have hm : r.purchased_date ∈ rows.map (fun s => s.purchased_date) :=
    List.mem_map_of_mem _ h
  rw [maxDate]
  split
  · next heq => rw [heq] at hm; cases hm
  · next d ds heq =>
    rw [heq] at hm
    rcases List.mem_cons.mp hm with h1 | h1
    · rw [← h1] at *
      exact le_foldl_max_init ds r.purchased_date
    · exact le_foldl_max_mem ds d _ h1

/-- Every row's date lies on the gap-free daily index. -/
theorem mem_allDates (rows : List Expense) (r : Expense) (h : r ∈ rows) :
    r.purchased_date ∈ allDates rows := by
  rw [allDates, List.mem_range'_1]
  have h1 := minDate_le rows r h
  have h2 := le_maxDate rows r h
  omega

/-! Claim theorems. -/

/-- C1: creating an expense and then listing all expenses with no filters
yields a list containing the newly created row exactly once, and that row
carries exactly the submitted `purchased_date`, `purchased_by`,
`price_in_cents` and `comment` (the counted record is built from the
submitted `BaseExpense` unchanged). -/
theorem spec_C1 (db : DB) (e : BaseExpense) :
    (list_all_expenses (create_expense db e) none none none).count
      { toBaseExpense := e, rowid := newRowid db } = 1 := by
  rw [list_all_expenses, filter_rowMatches_none,
    (List.perm_insertionSort dateDesc (create_expense db e)).count_eq,
    create_expense, List.count_append]
  have h0 : db.count { toBaseExpense := e, rowid := newRowid db } = 0 := by
    refine List.count_eq_zero.mpr fun hmem => ?_
    have hle := rowid_le_fold db _ hmem
    simp only [newRowid] at hle
    omega
  rw [h0]
  simp

/-- C2: updating by rowid is a pointwise operation: the table keeps its
length, every row whose rowid differs from the supplied one is unchanged,
and a row with the matching rowid gets exactly the supplied
`purchased_date`, `purchased_by`, `price_in_cents` and `comment`. -/
theorem spec_C2 (db : DB) (e : Expense) (i : Nat) (hi : i < db.length) :
    (update_expense db e).length = db.length ∧
    (update_expense db e)[i]? =
      some (if (db.get ⟨i, hi⟩).rowid = e.rowid
            then { toBaseExpense := e.toBaseExpense, rowid := (db.get ⟨i, hi⟩).rowid }
            else db.get ⟨i, hi⟩) := by
  constructor
  · simp [update_expense]
  · rw [update_expense, List.getElem?_map, List.getElem?_eq_getElem hi]
    simp

/-- C2 witness: the update hits row 2 of the concrete table `dbW`. -/
theorem spec_C2_witness :
    (update_expense dbW expW).length = dbW.length ∧
    (update_expense dbW expW)[1]? =
      some (if (dbW.get ⟨1, by decide⟩).rowid = expW.rowid
            then { toBaseExpense := expW.toBaseExpense, rowid := (dbW.get ⟨1, by decide⟩).rowid }
            else dbW.get ⟨1, by decide⟩) :=
  spec_C2 dbW expW 1 (by decide)

/-- C3: deleting removes every row carrying the given rowid, keeps every
other row, and a second delete with the same rowid is a no-op (the model is
a total function: SQLite raises no error when nothing matches). -/
theorem spec_C3 (db : DB) (e : Expense) :
    (∀ r ∈ delete_expense db e, r.rowid ≠ e.rowid) ∧
    (∀ r ∈ db, r.rowid ≠ e.rowid → r ∈ delete_expense db e) ∧
    delete_expense (delete_expense db e) e = delete_expense db e := by
  refine ⟨fun r hr => ?_, fun r hr hne => ?_, ?_⟩
  · have h2 := (List.mem_filter.mp hr).2
    simpa [bne_iff_ne] using h2
  · exact List.mem_filter.mpr ⟨hr, by simpa [bne_iff_ne] using hne⟩
  · exact List.filter_eq_self.mpr fun a ha => (List.mem_filter.mp ha).2

/-- C3 witness: row 1 of `dbW` survives deleting rowid 2. -/
theorem spec_C3_witness : wRow1 ∈ delete_expense dbW expW :=
  (spec_C3 dbW expW).2.1 wRow1 (by decide) (by decide)

/-- C4: the date-filtered listing holds exactly the rows inside the
inclusive bounds: each row's multiplicity in the result equals its
multiplicity in the table when its date satisfies the supplied bounds, and
is zero otherwise; with a single bound only that bound is tested. -/
theorem spec_C4 (db : DB) (sd ed : Nat) (r : Expense) :
    (list_all_expenses db (some sd) (some ed) none).count r
      = (if sd ≤ r.purchased_date ∧ r.purchased_date ≤ ed then db.count r else 0) ∧
    (list_all_expenses db (some sd) none none).count r
      = (if sd ≤ r.purchased_date then db.count r else 0) ∧
    (list_all_expenses db none (some ed) none).count r
      = (if r.purchased_date ≤ ed then db.count r else 0) := by
  refine ⟨?_, ?_, ?_⟩ <;>
    rw [list_all_expenses,
      (List.perm_insertionSort dateDesc _).count_eq, count_filter_split] <;>
    simp [rowMatches]

/-- C9: for every table and every filter combination the feed is sorted by
purchase date in non-increasing order; on the concrete table `dbOrder` the
feed order (rowids 2, 1, 3) is neither reverse creation order (3, 2, 1) nor
creation order (1, 2, 3). -/
theorem spec_C9 :
    (∀ (db : DB) (sd ed : Option Nat) (sel : Option (List String)),
        (list_all_expenses db sd ed sel).Sorted dateDesc) ∧
    (list_all_expenses dbOrder none none none).map (fun r => r.rowid) = [2, 1, 3] ∧
    ¬ ((list_all_expenses dbOrder none none none).map (fun r => r.rowid)).Sorted
        (fun a b => b ≤ a) ∧
    ¬ ((list_all_expenses dbOrder none none none).map (fun r => r.rowid)).Sorted
        (fun a b => a ≤ b) := by
  refine ⟨fun db sd ed sel => List.sorted_insertionSort dateDesc _, by decide, ?_, ?_⟩ <;>
    decide

/-- C10: updating with a rowid present in no row leaves the table unchanged
(and, the model being a total function, raises no error). -/
theorem spec_C10 (db : DB) (e : Expense) (h : ∀ r ∈ db, r.rowid ≠ e.rowid) :
    update_expense db e = db := by
  rw [update_expense]
  have hmap : ∀ r ∈ db,
      (if r.rowid = e.rowid
       then ({ toBaseExpense := e.toBaseExpense, rowid := r.rowid } : Expense)
       else r) = r :=
    fun r hr => if_neg (h r hr)
  rw [List.map_congr_left hmap]
  exact List.map_id' db

/-- C10 witness: rowid 7 matches nothing in `dbW`. -/
theorem spec_C10_witness : update_expense dbW expMissing = dbW :=
  spec_C10 dbW expMissing (by decide)

/-- C6 counterexample: the code accepts a negative price.  The empty table
satisfies the non-negativity invariant, yet `create_expense` with a
`price_in_cents` of `-1` (accepted by the unconstrained pydantic `int`
field) produces a table violating it. -/
theorem spec_C6_counterexample :
    (∀ r ∈ ([] : DB), 0 ≤ r.price_in_cents) ∧
    ¬ (∀ r ∈ create_expense [] badExpense, 0 ≤ r.price_in_cents) := by
  decide

/-- C6 amended: prices are plain integers and non-negativity is nowhere
enforced; what does hold is preservation: if the table is all non-negative
and the submitted expense has a non-negative price, create and update keep
every row non-negative, and seeded rows (prices drawn from
`randint(50, 100_00)`) are always non-negative. -/
theorem spec_C6 (db : DB) (e : BaseExpense) (eu : Expense)
    (hdb : ∀ r ∈ db, 0 ≤ r.price_in_cents)
    (he : 0 ≤ e.price_in_cents) (heu : 0 ≤ eu.price_in_cents)
    (rid : Int) (d : Nat) (who c : String) (price : Int)
    (hp : 50 ≤ price) :
    (∀ r ∈ create_expense db e, 0 ≤ r.price_in_cents) ∧
    (∀ r ∈ update_expense db eu, 0 ≤ r.price_in_cents) ∧
    0 ≤ (seedRow rid d who c price).price_in_cents := by
  refine ⟨fun r hr => ?_, fun r hr => ?_, ?_⟩
  · rcases List.mem_append.mp hr with h | h
    · exact hdb r h
    · rw [List.mem_singleton.mp h]
      exact he
  · rcases List.mem_map.mp hr with ⟨s, hs, rfl⟩
    by_cases hc : s.rowid = eu.rowid
    · simpa [hc] using heu
    · simpa [hc] using hdb s hs
  · simp only [seedRow]
    omega

/-- C6 witness: the preservation statement applied to the concrete table
`dbW`, a concrete non-negative creation, the concrete update `expW` and a
seed draw of 77 cents. -/
theorem spec_C6_witness :
    (∀ r ∈ create_expense dbW ⟨1200, 738521, "Mia", "food"⟩, 0 ≤ r.price_in_cents) ∧
    (∀ r ∈ update_expense dbW expW, 0 ≤ r.price_in_cents) ∧
    0 ≤ (seedRow 5 738000 "Gar" "seed" 77).price_in_cents :=
  spec_C6 dbW ⟨1200, 738521, "Mia", "food"⟩ expW (by decide) (by decide) (by decide)
    5 738000 "Gar" "seed" 77 (by decide)

/-- C7 counterexample: a comment of 141 characters, above `CHAR_LIMIT = 140`
(and above the `VARCHAR(120)` column width, which SQLite does not enforce),
is accepted and stored verbatim as a fresh row. -/
theorem spec_C7_counterexample :
    CHAR_LIMIT < longComment.length ∧
    create_expense [] longExpense = [{ toBaseExpense := longExpense, rowid := 1 }] := by
  constructor
  · decide
  · decide

/-- C7 amended: `comment` is a required field of the model (not optional),
and no length cap is enforced: an expense whose comment exceeds
`CHAR_LIMIT` is accepted by create and stored with its comment unchanged. -/
theorem spec_C7 (db : DB) (e : BaseExpense) (h : CHAR_LIMIT < e.comment.length) :
    ({ toBaseExpense := e, rowid := newRowid db } : Expense) ∈ create_expense db e ∧
    CHAR_LIMIT < ({ toBaseExpense := e, rowid := newRowid db } : Expense).comment.length := by
  constructor
  · rw [create_expense]
    exact List.mem_append_right _ (List.mem_singleton.mpr rfl)
  · exact h

/-- C7 witness: the 141-character comment of `longExpense` is accepted into
the empty table and kept at full length. -/
theorem spec_C7_witness :
    ({ toBaseExpense := longExpense, rowid := newRowid [] } : Expense) ∈
      create_expense [] longExpense ∧
    CHAR_LIMIT <
      ({ toBaseExpense := longExpense, rowid := newRowid [] } : Expense).comment.length :=
  spec_C7 [] longExpense (by decide)

/-- Summing an indicator over a list missing the index gives zero. -/
theorem sum_ite_notmem (a : Nat) (c : Int) (ds : List Nat) (h : a ∉ ds) :
    (ds.map fun d => if a == d then c else 0).sum = 0 := by
  induction ds with
  | nil => simp
  | cons d t ih =>
    simp only [List.map_cons, List.sum_cons]
    have h1 : ¬ ((a == d) = true) := by
      simp only [beq_iff_eq]
      exact fun he => h (he ▸ List.mem_cons_self d t)
    rw [if_neg h1, ih fun ht => h (List.mem_cons_of_mem _ ht)]
    simp

/-- Summing an indicator over a duplicate-free list containing the index
gives the indicated value once. -/
theorem sum_ite_mem (a : Nat) (c : Int) (ds : List Nat) (hnd : ds.Nodup) (h : a ∈ ds) :
    (ds.map fun d => if a == d then c else 0).sum = c := by
  induction ds with
  | nil => cases h
  | cons d t ih =>
    simp only [List.map_cons, List.sum_cons]
    rcases List.mem_cons.mp h with h1 | h1
    · subst h1
      rw [if_pos (by simp), sum_ite_notmem a c t (List.nodup_cons.mp hnd).1]
      simp
    · have h2 : ¬ ((a == d) = true) := by
        simp only [beq_iff_eq]
        exact fun he => (List.nodup_cons.mp hnd).1 (he ▸ h1)
      rw [if_neg h2, ih (List.nodup_cons.mp hnd).2 h1]
      simp

/-- Partition identity behind the pivot table: summing, over a
duplicate-free set of dates covering the rows, the per-date per-person
sums, recovers the person's direct row sum. -/
theorem sum_over_dates (p : String) (ds : List Nat) (l : List Expense)
    (hnd : ds.Nodup) (hmem : ∀ r ∈ l, r.purchased_date ∈ ds) :
    (ds.map fun d => dailyTotal l p d).sum = specDirectTotal l p := by
  induction l with
  | nil => simp [dailyTotal, specDirectTotal]
  | cons r t ih =>
    have hmt : ∀ s ∈ t, s.purchased_date ∈ ds :=
      fun s hs => hmem s (List.mem_cons_of_mem _ hs)
    have hstep : ∀ d : Nat, dailyTotal (r :: t) p d =
        (if r.purchased_date == d && r.purchased_by == p then r.price_in_cents else 0)
          + dailyTotal t p d := by
      intro d
      rw [dailyTotal, dailyTotal, List.filter_cons]
      by_cases hc : (r.purchased_date == d && r.purchased_by == p) = true
      · rw [if_pos hc, if_pos hc]
        simp
      · rw [if_neg hc, if_neg hc]
        simp
    have hsplit : (ds.map fun d => dailyTotal (r :: t) p d).sum =
        (ds.map fun d =>
          (if r.purchased_date == d && r.purchased_by == p then r.price_in_cents else 0)).sum
          + (ds.map fun d => dailyTotal t p d).sum := by
      rw [List.map_congr_left fun d _ => hstep d]
      exact List.sum_map_add
    have hsd : specDirectTotal (r :: t) p =
        (if r.purchased_by == p then r.price_in_cents else 0) + specDirectTotal t p := by
      rw [specDirectTotal, specDirectTotal, List.filter_cons]
      by_cases hby : (r.purchased_by == p) = true
      · rw [if_pos hby, if_pos hby]
        simp
      · rw [if_neg hby, if_neg hby]
        simp
    rw [hsplit, ih hmt, hsd]
    by_cases hby : (r.purchased_by == p) = true
    · have hind : (ds.map fun d =>
          (if r.purchased_date == d && r.purchased_by == p then r.price_in_cents else 0)).sum
            = r.price_in_cents := by
        have heq : ∀ d ∈ ds,
            (if r.purchased_date == d && r.purchased_by == p then r.price_in_cents else 0)
              = (if r.purchased_date == d then r.price_in_cents else 0) := by
          intro d _
          rw [hby, Bool.and_true]
        rw [List.map_congr_left heq]
        exact sum_ite_mem _ _ ds hnd (hmem r (List.mem_cons_self r t))
      rw [hind, if_pos hby]
    · have hind : (ds.map fun d =>
          (if r.purchased_date == d && r.purchased_by == p then r.price_in_cents else 0)).sum
            = 0 := by
        have heq : ∀ d ∈ ds,
            (if r.purchased_date == d && r.purchased_by == p then r.price_in_cents else 0)
              = (0 : Int) := by
          intro d _
          rw [if_neg]
          simp only [Bool.and_eq_true]
          exact fun hand => hby hand.2
        rw [List.map_congr_left heq]
        simp
      rw [hind, if_neg hby]

/-- C5: the per-person total obtained by pivoting into a date-by-purchaser
grid (summing duplicates per day, filling missing days with zero) and then
summing the person's column equals the direct sum of `price_in_cents` over
that person's raw rows. -/
theorem spec_C5 (rows : List Expense) (p : String) (hne : rows ≠ []) :
    pivotTotal rows p = specDirectTotal rows p := by
  rw [pivotTotal]
  exact sum_over_dates p (allDates rows) rows
    (List.nodup_range' _ _) (mem_allDates rows)

/-- C5 witness: the pivoted and direct totals agree on the concrete table
`dbW` for Alice. -/
theorem spec_C5_witness :
    dbW ≠ [] ∧ pivotTotal dbW "Alice" = specDirectTotal dbW "Alice" :=
  ⟨by decide, spec_C5 dbW "Alice" (by decide)⟩

/-- Taking a prefix of an arithmetic day range shortens the range. -/
theorem take_range_days : ∀ (n s k : Nat), (List.range' s n).take k = List.range' s (min k n) := by
  intro n
  induction n with
  | zero =>
    intro s k
    simp
  | succ n ih =>
    intro s k
    cases k with
    | zero => simp
    | succ k =>
      rw [List.range'_succ, List.take_succ_cons, ih (s + 1) k,
        Nat.succ_min_succ, List.range'_succ]

/-- Dropping a prefix of an arithmetic day range shifts its start. -/
theorem drop_range_days : ∀ (n s k : Nat),
    (List.range' s n).drop k = List.range' (s + k) (n - k) := by
  intro n
  induction n with
  | zero =>
    intro s k
    simp
  | succ n ih =>
    intro s k
    cases k with
    | zero => simp
    | succ k =>
      rw [List.range'_succ, List.drop_succ_cons, ih (s + 1) k]
      have h1 : s + 1 + k = s + (k + 1) := by omega
      have h2 : n - k = n + 1 - (k + 1) := by omega
      rw [h1, h2]

/-- Filtering an arithmetic day range by an inclusive interval yields the
clipped sub-range. -/
theorem filter_range_days : ∀ (n s a b : Nat),
    (List.range' s n).filter (fun x => decide (a ≤ x) && decide (x ≤ b)) =
    List.range' (max s a) (min (s + n) (b + 1) - max s a) := by
  intro n
  induction n with
  | zero =>
    intro s a b
    rw [show List.range' s 0 = [] from rfl, List.filter_nil]
    symm
    rw [List.range'_eq_nil]
    omega
  | succ n ih =>
    intro s a b
    rw [List.range'_succ, List.filter_cons]
    by_cases h : a ≤ s ∧ s ≤ b
    · have hc : (decide (a ≤ s) && decide (s ≤ b)) = true := by
        simp [h.1, h.2]
      rw [if_pos hc, ih (s + 1) a b]
      have h1 : max (s + 1) a = s + 1 := by omega
      have h2 : max s a = s := by omega
      have h3 : min (s + (n + 1)) (b + 1) - s = (min (s + 1 + n) (b + 1) - (s + 1)) + 1 := by
        omega
      rw [h1, h2, h3, List.range'_succ]
    · have hc : ¬ ((decide (a ≤ s) && decide (s ≤ b)) = true) := by
        simp only [Bool.and_eq_true, decide_eq_true_eq]
        exact h
      rw [if_neg hc, ih (s + 1) a b]
      rcases Nat.lt_or_ge s a with hlt | hge
      · have h1 : max (s + 1) a = max s a := by omega
        have h2 : s + 1 + n = s + (n + 1) := by omega
        rw [h1, h2]
      · have hsb : ¬ (s ≤ b) := fun hle => h ⟨hge, hle⟩
        rw [List.range'_eq_nil.mpr (by omega), List.range'_eq_nil.mpr (by omega)]

/-- The trailing rolling window over a daily series, read off the underlying
day range: for position `i` of the range it is the image of the clipped
sub-range of the last `w` days. -/
theorem windowAt_range_map (f : Nat → Int) (s n w i : Nat) (hi : i < n) :
    windowAt w ((List.range' s n).map f) i =
    (List.range' (s + (i + 1 - w)) ((i + 1) - (i + 1 - w))).map f := by
  rw [windowAt, ← List.map_take, ← List.map_drop, take_range_days,
    Nat.min_eq_left (by omega : i + 1 ≤ n), drop_range_days]

/-- C8: on the reindexed gap-free daily series, the 7-day rolling value at
position `i` (date `minDate + i`) is the sum of the daily totals over that
date and the at most 6 preceding calendar days of the range, and the 30-day
rolling value is the maximum daily total over that date and the at most 29
preceding calendar days of the range. -/
theorem spec_C8 (rows : List Expense) (p : String) (i : Nat)
    (hi : i < (allDates rows).length) :
    (rollingSum 7 (series rows p))[i]? =
      some (((specTrailingDates rows (minDate rows + i) 6).map (dailyTotal rows p)).sum) ∧
    (rollingMax 30 (series rows p))[i]? =
      some (listMax ((specTrailingDates rows (minDate rows + i) 29).map (dailyTotal rows p))) := by
  have hi' : i < maxDate rows + 1 - minDate rows := by
    simpa [allDates] using hi
  have hv : series rows p =
      (List.range' (minDate rows) (maxDate rows + 1 - minDate rows)).map (dailyTotal rows p) := by
    rw [series, allDates]
  have hlen : i < (series rows p).length := by
    rw [hv, List.length_map, List.length_range']
    exact hi'
  constructor
  · rw [rollingSum, List.getElem?_map, List.getElem?_range hlen]
    show some ((windowAt 7 (series rows p) i).sum) = _
    refine congrArg some ?_
    rw [hv, windowAt_range_map (dailyTotal rows p) (minDate rows)
      (maxDate rows + 1 - minDate rows) 7 i hi']
    have h7 : specTrailingDates rows (minDate rows + i) 6 =
        List.range' (minDate rows + (i + 1 - 7)) ((i + 1) - (i + 1 - 7)) := by
      rw [specTrailingDates, allDates, filter_range_days]
      have h1 : max (minDate rows) (minDate rows + i - 6) = minDate rows + (i + 1 - 7) := by
        omega
      have h2 : min (minDate rows + (maxDate rows + 1 - minDate rows)) (minDate rows + i + 1)
          - (minDate rows + (i + 1 - 7)) = (i + 1) - (i + 1 - 7) := by
        omega
      rw [h1, h2]
    rw [h7]
  · rw [rollingMax, List.getElem?_map, List.getElem?_range hlen]
    show some (listMax (windowAt 30 (series rows p) i)) = _
    refine congrArg some ?_
    rw [hv, windowAt_range_map (dailyTotal rows p) (minDate rows)
      (maxDate rows + 1 - minDate rows) 30 i hi']
    have h30 : specTrailingDates rows (minDate rows + i) 29 =
        List.range' (minDate rows + (i + 1 - 30)) ((i + 1) - (i + 1 - 30)) := by
      rw [specTrailingDates, allDates, filter_range_days]
      have h1 : max (minDate rows) (minDate rows + i - 29) = minDate rows + (i + 1 - 30) := by
        omega
      have h2 : min (minDate rows + (maxDate rows + 1 - minDate rows)) (minDate rows + i + 1)
          - (minDate rows + (i + 1 - 30)) = (i + 1) - (i + 1 - 30) := by
        omega
      rw [h1, h2]
    rw [h30]

/-- C8 witness: the rolling aggregates at position 1 of the three-day range
of the concrete table `dbW`, for Alice. -/
theorem spec_C8_witness :
    (rollingSum 7 (series dbW "Alice"))[1]? =
      some (((specTrailingDates dbW (minDate dbW + 1) 6).map (dailyTotal dbW "Alice")).sum) ∧
    (rollingMax 30 (series dbW "Alice"))[1]? =
      some (listMax ((specTrailingDates dbW (minDate dbW + 1) 29).map (dailyTotal dbW "Alice"))) :=
  spec_C8 dbW "Alice" 1 (by decide)

end RoommateLedger
